import Mathlib

/-!
Verification development for the `FuzzySearch` filter component
(`src/FuzzySearch.tsx`): a shallow embedding of its pure logic —
the tag store (a JS `Map<string, string | null>`), the suggestion
engine, the commit operation `selectSuggestion`, `removeLastTagSection`,
the filter evaluator, and the highlight-index arithmetic — together
with theorems settling the specification's claims about them.

JS strings are modelled as Lean `String`; the JS string primitives
`startsWith`, `includes` and `toLowerCase` are modelled by explicit
structurally recursive functions over `List Char` (`toLowerCase` in its
ASCII fragment, which covers the data this component handles).
Computations that can throw in JS (`Object.keys(undefined)`, property
access with a key absent from the record followed by `.toString()`)
are modelled in the `Option` monad, `none` standing for a thrown
`TypeError`.
-/

namespace FuzzySearch

/-- `pre` is a prefix of `hay` (model of JS `String.prototype.startsWith`
on exploded strings). -/
def listStartsWith : List Char → List Char → Bool
  | _, [] => true
  | [], _ :: _ => false
  | a :: as, b :: bs => a == b && listStartsWith as bs

/-- `pat` occurs contiguously in `hay` (model of JS
`String.prototype.includes` on exploded strings). -/
def listHasInfix : List Char → List Char → Bool
  | [], pat => listStartsWith [] pat
  | a :: as, pat => listStartsWith (a :: as) pat || listHasInfix as pat

/-- Model of JS `s.startsWith(pre)`. -/
def jsStartsWith (s pre : String) : Bool :=
  listStartsWith s.toList pre.toList

/-- Model of JS `s.includes(pat)`. -/
def jsIncludes (s pat : String) : Bool :=
  listHasInfix s.toList pat.toList

/-- Model of JS `s.toLowerCase()` (ASCII fragment). -/
def jsToLower (s : String) : String :=
  (s.toList.map Char.toLower).asString

/-- An HTTP log record, after `src/types.ts`. The `method` field is a
string drawn from the HTTP-verb union type; `statusCode` is a number,
modelled as an integer since the sample data uses integer status codes. -/
structure HttpLog where
  method : String
  path : String
  statusCode : Int
  id : String
  domain : String
deriving DecidableEq, Repr

/-- The attribute names of `HttpLog`, in declaration order: what
`Object.keys` yields on a well-formed record. -/
def fieldNames : List String :=
  ["method", "path", "statusCode", "id", "domain"]

/-- JS property access `item[key]` followed by `.toString()`: `none`
models the `TypeError` thrown when `key` is not a property of the
record (`undefined.toString()`). Numbers stringify in decimal. -/
def getField (item : HttpLog) (key : String) : Option String :=
  if key = "method" then some item.method
  else if key = "path" then some item.path
  else if key = "statusCode" then some (toString item.statusCode)
  else if key = "id" then some item.id
  else if key = "domain" then some item.domain
  else none

/-- Total variant of `getField`, used by the specification-side
definitions (meaningful only on valid keys). -/
def getFieldD (item : HttpLog) (key : String) : String :=
  (getField item key).getD ""

/-- The tag store: a JS `Map<string, string | null>` modelled as an
association list in insertion order; `none` is the JS `null` value
of a pending ("incomplete") tag. -/
abbrev Tags := List (String × Option String)

/-- JS `tags.has(k)`. -/
def Tags.hasKey (t : Tags) (k : String) : Bool :=
  t.any (fun p => p.1 == k)

/-- JS `Map.set`: overwrite in place when the key is present
(insertion order preserved), append otherwise. -/
def Tags.set (t : Tags) (k : String) (v : Option String) : Tags :=
  if t.hasKey k then t.map (fun p => if p.1 == k then (k, v) else p)
  else t ++ [(k, v)]

/-- JS `Map.delete`. -/
def Tags.delete (t : Tags) (k : String) : Tags :=
  t.filter (fun p => p.1 != k)

/-- JS truthiness test `!value` for a `string | null` value: `null` and
the empty string are falsy. -/
def falsy : Option String → Bool
  | none => true
  | some s => s == ""

/-- The `incompleteTag` memo: the key of the first entry whose value is
`null`, if any. -/
def incompleteTag (t : Tags) : Option String :=
  (t.find? (fun p => p.2.isNone)).map (fun p => p.1)

/-- The truthiness test the code applies to `incompleteTag`
(`if (incompleteTag)` / `if (!incompleteTag)`): both `null` (no pending
entry, modelled `none`) and the empty-string key are falsy in JS. -/
def truthyIncomplete (t : Tags) : Option String :=
  match incompleteTag t with
  | none => none
  | some k => if k = "" then none else some k

/-- The `dataKeys` memo, `Object.keys(data[0])`: `none` models the
`TypeError` thrown on an empty dataset (`data[0]` is `undefined`). -/
def dataKeys (data : List HttpLog) : Option (List String) :=
  match data with
  | [] => none
  | _ :: _ => some fieldNames

/-- First-seen deduplication, as performed by `new Set` followed by
`Array.from` (auxiliary accumulator form). -/
def dedupSeen (seen : List String) : List String → List String
  | [] => []
  | x :: xs =>
    if x ∈ seen then dedupSeen seen xs else x :: dedupSeen (x :: seen) xs

/-- First-seen deduplication of a list of strings. -/
def dedupFirstSeen (l : List String) : List String :=
  dedupSeen [] l

/-- Stringification of the field `tagKey` across the dataset
(`data.map((i) => i[tagKey])` with `.toString()` applied to each value,
as the subsequent `filter` and `map` of `getSuggestions` do): `none`
models the `TypeError` thrown on the first `undefined` value. -/
def stringifyAll (tagKey : String) : List HttpLog → Option (List String)
  | [] => some []
  | x :: xs => do
    let s ← getField x tagKey
    let rest ← stringifyAll tagKey xs
    pure (s :: rest)

/-- The module-level helper `getSuggestions(data, tagKey, inputValue)`:
stringified values of the field `tagKey` across the dataset whose
lowercase form contains the lowercase input, deduplicated first-seen.
`none` models the throw on a `tagKey` absent from the records. -/
def getSuggestions (data : List HttpLog) (tagKey : String)
    (inputValue : String) : Option (List String) := do
  let vals ← stringifyAll tagKey data
  let filtered := vals.filter
    (fun s => jsIncludes (jsToLower s) (jsToLower inputValue))
  pure (dedupFirstSeen filtered)

/-- `getMatchingKeys(input)`: data keys that start with the input and
are not already keys of the tag store. -/
def getMatchingKeys (keys : List String) (t : Tags) (input : String) :
    List String :=
  keys.filter (fun k => jsStartsWith k input && !(t.hasKey k))

/-- The `suggestions` memo, parametrised by the already-computed
`dataKeys` value captured by its closure. -/
def suggestions (data : List HttpLog) (keys : List String) (t : Tags)
    (inputValue : String) : Option (List String) :=
  match truthyIncomplete t with
  | none => do
    let pathSuggestions ←
      if !(t.hasKey "path") then getSuggestions data "path" inputValue
      else pure []
    if pathSuggestions.length > 0 then
      pure pathSuggestions
    else
      pure (getMatchingKeys keys t inputValue)
  | some k => getSuggestions data k inputValue

/-- The suggestion computation at component level: `dataKeys` is
computed first (and throws on an empty dataset), then the
`suggestions` memo. -/
def computeSuggestions (data : List HttpLog) (t : Tags)
    (inputValue : String) : Option (List String) := do
  let keys ← dataKeys data
  suggestions data keys t inputValue

/-- The tag-checking loop of the filter effect: entries with falsy
values are skipped; a completed tag whose value differs from the
record's stringified field rejects the record immediately. -/
def tagsPass (item : HttpLog) : Tags → Option Bool
  | [] => some true
  | (k, v) :: rest =>
    if falsy v then tagsPass item rest
    else do
      let fv ← getField item k
      if fv = (v.getD "") then tagsPass item rest else pure false

/-- The per-record predicate of the filter effect (body of
`data.filter(...)` in the filter `useEffect`). -/
def recordPasses (keys : List String) (t : Tags) (inputValue : String)
    (item : HttpLog) : Option Bool := do
  let tp ← tagsPass item t
  if !tp then pure false
  else
    let isSelectingTag := keys.any
      (fun key => jsStartsWith key inputValue && !(t.hasKey key))
    if inputValue.length > 0 && !isSelectingTag then
      pure (jsIncludes item.path inputValue)
    else
      pure true

/-- `Array.prototype.filter` with a predicate that may throw, in
left-to-right order. -/
def filterOpt {α : Type} (p : α → Option Bool) : List α → Option (List α)
  | [] => some []
  | x :: xs => do
    let b ← p x
    let rest ← filterOpt p xs
    pure (if b then x :: rest else rest)

/-- The filter effect: the subsequence of the dataset passing
`recordPasses`, reported to the host via `onChange`. -/
def filterResults (data : List HttpLog) (keys : List String) (t : Tags)
    (inputValue : String) : Option (List HttpLog) :=
  filterOpt (recordPasses keys t inputValue) data

/-- `selectSuggestion`, after resolution of the committed candidate
(`suggestion || suggestions[highlightedSuggestion]?.toString()`):
`none` models an `undefined` candidate. -/
def selectSuggestion (t : Tags) (keys : List String)
    (cand : Option String) : Tags :=
  let selectedSuggestion := cand.getD ""
  let isTag := (getMatchingKeys keys t selectedSuggestion).length > 0
  if selectedSuggestion = "" then t
  else
    match truthyIncomplete t with
    | some k => t.set k (some selectedSuggestion)
    | none =>
      if isTag then t.set selectedSuggestion none
      else t.set "path" (some selectedSuggestion)

/-- `removeLastTagSection`: with no incomplete tag, reset the last
entry's value to `null`; with an incomplete tag, delete its key. -/
def removeLastTagSection (t : Tags) : Tags :=
  match truthyIncomplete t with
  | none =>
    match t.getLast? with
    | some lastTag => t.set lastTag.1 none
    | none => t
  | some k => t.delete k

/-- Arrow-key direction. -/
inductive Direction where
  | up
  | down
deriving DecidableEq

/-- `changeHighlightedSuggestion`: move the highlight index one step,
saturating at `0` going up and at `len - 1` going down. -/
def changeHighlightedSuggestion (dir : Direction) (len : Nat)
    (prev : Int) : Int :=
  match dir with
  | .up => if prev > 0 then prev - 1 else prev
  | .down => if prev < (len : Int) - 1 then prev + 1 else prev

/-- The clamping `useEffect`: when the highlight index is at least the
list length, reset it to `len - 1` (which is `-1` for an empty list). -/
def clampHighlight (len : Nat) (h : Int) : Int :=
  if h ≥ (len : Int) then (len : Int) - 1 else h

end FuzzySearch

namespace FuzzySearch

/-! ### Helper lemmas -/

/-- `getField` succeeds on every valid field name, returning the total
stringification. -/
theorem getField_of_mem (item : HttpLog) (k : String)
    (h : k ∈ fieldNames) : getField item k = some (getFieldD item k) := by
  simp only [fieldNames, List.mem_cons, List.not_mem_nil, or_false] at h
  rcases h with rfl | rfl | rfl | rfl | rfl <;> rfl

/-- Stringifying a whole dataset at a valid field name never throws. -/
theorem stringifyAll_of_mem (data : List HttpLog) (k : String)
    (h : k ∈ fieldNames) :
    stringifyAll k data = some (data.map (fun i => getFieldD i k)) := by
  induction data with
  | nil => rfl
  | cons x xs ih =>
    simp only [stringifyAll, getField_of_mem x k h, ih, List.map_cons]
    rfl

/-- Closed form of `getSuggestions` at a valid field name. -/
theorem getSuggestions_of_mem (data : List HttpLog) (k input : String)
    (h : k ∈ fieldNames) :
    getSuggestions data k input
      = some (dedupFirstSeen ((data.map (fun i => getFieldD i k)).filter
          (fun s => jsIncludes (jsToLower s) (jsToLower input)))) := by
  rw [getSuggestions, stringifyAll_of_mem data k h]
  rfl

/-- `filterOpt` only depends on the pointwise behaviour of its
predicate. -/
theorem filterOpt_congr {α : Type} (p q : α → Option Bool)
    (h : ∀ x, p x = q x) : ∀ l, filterOpt p l = filterOpt q l := by
  intro l
  induction l with
  | nil => rfl
  | cons x xs ih => simp only [filterOpt, h x, ih]

/-! ### C8: filtering with no tags and empty input is the identity -/

theorem recordPasses_empty (keys : List String) (item : HttpLog) :
    recordPasses keys [] "" item = some true := by
  rfl

/-- C8: for every dataset and every captured `dataKeys` value, the
filter effect with an empty tag store and empty input text reports the
dataset unchanged, in order. -/
theorem filter_identity_empty_filters (data : List HttpLog)
    (keys : List String) : filterResults data keys [] "" = some data := by
  induction data with
  | nil => rfl
  | cons x xs ih =>
    simp only [filterResults, filterOpt, recordPasses_empty keys x] at *
    simp [ih]

/-! ### C10: a tag with an empty-string value imposes no constraint -/

theorem tagsPass_empty_value (item : HttpLog) (k : String) (t₂ : Tags) :
    ∀ t₁ : Tags, tagsPass item (t₁ ++ (k, some "") :: t₂)
      = tagsPass item (t₁ ++ (k, none) :: t₂) := by
  intro t₁
  induction t₁ with
  | nil => simp [tagsPass, falsy]
  | cons p rest ih =>
    obtain ⟨k', v'⟩ := p
    simp only [List.cons_append, tagsPass, List.append_eq, ih]

theorem hasKey_empty_value (k key : String) (t₁ t₂ : Tags) :
    Tags.hasKey (t₁ ++ (k, some "") :: t₂) key
      = Tags.hasKey (t₁ ++ (k, none) :: t₂) key := by
  simp [Tags.hasKey]

/-- C10: in the filter evaluator, a tag whose value is the empty string
behaves exactly like a pending tag: the tag loop skips every falsy
value, not only `null` ones, so the reported records are identical. -/
theorem empty_value_tag_no_constraint (data : List HttpLog)
    (keys : List String) (t₁ t₂ : Tags) (k input : String) :
    filterResults data keys (t₁ ++ (k, some "") :: t₂) input
      = filterResults data keys (t₁ ++ (k, none) :: t₂) input := by
  apply filterOpt_congr
  intro item
  simp only [recordPasses, tagsPass_empty_value item k t₂ t₁]
  simp only [hasKey_empty_value k _ t₁ t₂]

/-! ### C5: highlight clamping -/

/-- C5 counterexample: after the suggestion list shrinks to empty the
clamp sets the highlight index to `-1`; when the list then grows back
to one element, the clamp leaves the index at `-1`, which is not in
`[0, 0]` — so clamping does not re-establish `[0, len-1]` when the
list grows again. -/
theorem clamp_growth_counterexample :
    clampHighlight 0 0 = -1 ∧ clampHighlight 1 (clampHighlight 0 0) = -1
      ∧ ¬(0 ≤ clampHighlight 1 (clampHighlight 0 0)) := by
  decide

/-- C5 (amended): after clamping, any highlight index that was at least
`-1` lies within `[-1, len-1]`; in particular it is `-1` when the list
is empty. An index of `-1` can persist when the list is non-empty. -/
theorem clamp_bounds (len : Nat) (h : Int) (hge : -1 ≤ h) :
    -1 ≤ clampHighlight len h ∧ clampHighlight len h ≤ (len : Int) - 1 ∧
      (len = 0 → clampHighlight len h = -1) := by
  simp only [clampHighlight]
  split <;> omega

theorem clamp_bounds_witness :
    -1 ≤ clampHighlight 3 5 ∧ clampHighlight 3 5 ≤ ((3 : Nat) : Int) - 1 ∧
      ((3 : Nat) = 0 → clampHighlight 3 5 = -1) :=
  clamp_bounds 3 5 (by decide)

/-! ### C9: arrow-key navigation -/

/-- C9 counterexample: from a highlight index of `-1` (reachable after
the list emptied and grew back, see the clamp), ArrowUp on a one-element
list leaves the index at `-1`, outside `[0, len-1]` — the claim fails
for out-of-range starting indices. -/
theorem arrow_out_of_range_counterexample :
    changeHighlightedSuggestion Direction.up 1 (-1) = -1 ∧
      ¬(0 ≤ changeHighlightedSuggestion Direction.up 1 (-1)) := by
  decide

/-- C9 (amended): for every starting highlight index within
`[0, len-1]`, ArrowUp and ArrowDown keep the index within
`[0, len-1]`, saturating at the bounds with no wraparound: ArrowUp at
`0` and ArrowDown at `len-1` leave the index unchanged. -/
theorem arrow_saturation (dir : Direction) (len : Nat) (prev : Int)
    (h0 : 0 ≤ prev) (h1 : prev ≤ (len : Int) - 1) :
    (0 ≤ changeHighlightedSuggestion dir len prev ∧
      changeHighlightedSuggestion dir len prev ≤ (len : Int) - 1) ∧
    changeHighlightedSuggestion Direction.up len 0 = 0 ∧
    changeHighlightedSuggestion Direction.down len ((len : Int) - 1)
      = (len : Int) - 1 := by
  refine ⟨?_, ?_, ?_⟩
  · cases dir <;> simp only [changeHighlightedSuggestion] <;>
      split <;> omega
  · simp only [changeHighlightedSuggestion]
    split <;> omega
  · simp only [changeHighlightedSuggestion]
    split <;> omega

theorem arrow_saturation_witness :
    (0 ≤ changeHighlightedSuggestion Direction.down 2 1 ∧
      changeHighlightedSuggestion Direction.down 2 1 ≤ ((2 : Nat) : Int) - 1) ∧
    changeHighlightedSuggestion Direction.up 2 0 = 0 ∧
    changeHighlightedSuggestion Direction.down 2 (((2 : Nat) : Int) - 1)
      = ((2 : Nat) : Int) - 1 :=
  arrow_saturation Direction.down 2 1 (by decide) (by decide)

/-! ### C7: totality of the suggestion computation -/

/-- C7 counterexample: on the empty dataset the component's `dataKeys`
computation `Object.keys(data[0])` throws (modelled by `none`), so the
suggestion computation does not yield a list — the claim's "including
the empty dataset" fails. -/
theorem computeSuggestions_empty_dataset :
    computeSuggestions [] [] "" = none := by
  rfl

/-- C7 (amended): for every non-empty dataset, every tag store whose
incomplete key (if any) is a valid field name, and every input text,
the suggestion computation yields a (possibly empty) list without
throwing. -/
theorem computeSuggestions_total (data : List HttpLog) (t : Tags)
    (input : String) (hd : data ≠ [])
    (hk : ∀ k, truthyIncomplete t = some k → k ∈ fieldNames) :
    ∃ l, computeSuggestions data t input = some l := by
  obtain ⟨x, xs, rfl⟩ : ∃ x xs, data = x :: xs := by
    cases data with
    | nil => exact absurd rfl hd
    | cons x xs => exact ⟨x, xs, rfl⟩
  simp only [computeSuggestions, dataKeys, Option.bind_eq_bind,
    Option.some_bind]
  cases hinc : truthyIncomplete t with
  | none =>
    simp only [suggestions, hinc]
    cases hp : Tags.hasKey t "path" with
    | true => simp [hp]
    | false =>
      simp only [hp,
        getSuggestions_of_mem (x :: xs) "path" input (by simp [fieldNames])]
      simp only [Bool.not_false, if_true, Option.bind_eq_bind,
        Option.some_bind]
      split <;> exact ⟨_, rfl⟩
  | some k =>
    simp only [suggestions, hinc,
      getSuggestions_of_mem (x :: xs) k input (hk k hinc)]
    exact ⟨_, rfl⟩

theorem computeSuggestions_total_witness :
    ∃ l, computeSuggestions [⟨"GET", "/users", 200, "1", "a.com"⟩] [] "u"
      = some l :=
  computeSuggestions_total [⟨"GET", "/users", 200, "1", "a.com"⟩] [] "u"
    (by simp) (by intro k hk; simp [truthyIncomplete, incompleteTag] at hk)

/-! ### C6: removeLastTagSection -/

/-- C6: with an incomplete tag, `removeLastTagSection` deletes that
key; with none, on a store whose last (most recently inserted) entry
has key `k` not occurring earlier, it resets exactly that entry's value
to pending, keeping the key and every other entry untouched. -/
theorem removeLastTagSection_spec (t t₀ : Tags) (k : String)
    (v : Option String) :
    (truthyIncomplete t = some k → removeLastTagSection t = t.delete k) ∧
    (truthyIncomplete (t₀ ++ [(k, v)]) = none → t₀.hasKey k = false →
      removeLastTagSection (t₀ ++ [(k, v)]) = t₀ ++ [(k, none)]) := by
  constructor
  · intro h
    simp only [removeLastTagSection, h]
  · intro hinc hkey
    simp only [removeLastTagSection, hinc, List.getLast?_concat]
    have hmem : Tags.hasKey (t₀ ++ [(k, v)]) k = true := by
      simp [Tags.hasKey]
    simp only [Tags.set, hmem, if_true, List.map_append]
    have hall : ∀ p ∈ t₀, (p.1 == k) = false := by
      intro p hp
      cases hb : (p.1 == k) with
      | false => rfl
      | true =>
        exfalso
        have hk2 : Tags.hasKey t₀ k = true := by
          simp only [Tags.hasKey, List.any_eq_true]
          exact ⟨p, hp, hb⟩
        rw [hk2] at hkey
        simp at hkey
    have ht₀ : t₀.map (fun p => if p.1 == k then (k, none) else p) = t₀ := by
      have hpt : ∀ p ∈ t₀,
          (if p.1 == k then ((k, none) : String × Option String) else p)
            = id p := by
        intro p hp
        rw [hall p hp]
        rfl
      rw [List.map_congr_left hpt, List.map_id]
    rw [ht₀]
    simp

theorem removeLastTagSection_spec_witness :
    (removeLastTagSection [("method", (none : Option String))]
      = Tags.delete [("method", none)] "method") ∧
    (removeLastTagSection ([("method", some "GET")] ++ [("domain", some "d")])
      = [("method", some "GET")] ++ [("domain", none)]) :=
  ⟨(removeLastTagSection_spec [("method", none)] [] "method" none).1
      (by decide),
    (removeLastTagSection_spec [] [("method", some "GET")] "domain"
      (some "d")).2 (by decide) (by decide)⟩

/-! ### C1: the filter evaluator against its specification -/

/-- Specification-side check of a single tag entry, following the
claim as stated: every completed (non-`null`) tag's value must be
exactly string-equal to the record's corresponding field. -/
def tagOkClaim (item : HttpLog) (p : String × Option String) : Bool :=
  match p.2 with
  | none => true
  | some s => getFieldD item p.1 == s

/-- Specification-side check of a single tag entry, amended: a tag
whose value is the empty string also imposes no constraint, because
the code skips every falsy value. -/
def tagOkAmended (item : HttpLog) (p : String × Option String) : Bool :=
  match p.2 with
  | none => true
  | some s => s == "" || getFieldD item p.1 == s

/-- Specification-side path condition: whenever the input text is
non-empty and no unused field name starts with it, the record's path
must contain it as a case-sensitive substring. -/
def pathOk (keys : List String) (t : Tags) (input : String)
    (item : HttpLog) : Bool :=
  if input.length > 0 &&
      !(keys.any (fun key => jsStartsWith key input && !(t.hasKey key))) then
    jsIncludes item.path input
  else true

/-- Record acceptance per the claim as stated. -/
def acceptsClaim (keys : List String) (t : Tags) (input : String)
    (item : HttpLog) : Bool :=
  t.all (tagOkClaim item) && pathOk keys t input item

/-- Record acceptance per the amended claim. -/
def acceptsAmended (keys : List String) (t : Tags) (input : String)
    (item : HttpLog) : Bool :=
  t.all (tagOkAmended item) && pathOk keys t input item

theorem tagsPass_eq_all (item : HttpLog) :
    ∀ t : Tags, (∀ p ∈ t, p.1 ∈ fieldNames) →
      tagsPass item t = some (t.all (tagOkAmended item)) := by
  intro t
  induction t with
  | nil => intro _; rfl
  | cons p rest ih =>
    intro h
    obtain ⟨k, v⟩ := p
    have hk : k ∈ fieldNames := h (k, v) (List.mem_cons_self _ _)
    have hrest : ∀ q ∈ rest, q.1 ∈ fieldNames :=
      fun q hq => h q (List.mem_cons_of_mem _ hq)
    cases v with
    | none =>
      simp [tagsPass, falsy, tagOkAmended, List.all_cons, ih hrest]
    | some s =>
      by_cases hs : s = ""
      · subst hs
        simp [tagsPass, falsy, tagOkAmended, List.all_cons, ih hrest]
      · have hs' : (s == "") = false := by simp [hs]
        simp only [tagsPass, falsy, hs', Bool.false_eq_true, if_false,
          getField_of_mem item k hk, Option.bind_eq_bind, Option.some_bind]
        by_cases heq : getFieldD item k = s
        · simp [heq, tagOkAmended, hs', List.all_cons, ih hrest]
        · have heq' : (getFieldD item k == s) = false := by simp [heq]
          simp [heq, tagOkAmended, hs', heq', List.all_cons]

theorem recordPasses_eq_accepts (keys : List String) (t : Tags)
    (input : String) (item : HttpLog)
    (h : ∀ p ∈ t, p.1 ∈ fieldNames) :
    recordPasses keys t input item
      = some (acceptsAmended keys t input item) := by
  simp only [recordPasses, tagsPass_eq_all item t h, Option.bind_eq_bind,
    Option.some_bind]
  cases hall : t.all (tagOkAmended item) with
  | false => simp [acceptsAmended, hall]
  | true =>
    simp only [Bool.not_true, Bool.false_eq_true, if_false, acceptsAmended,
      hall, Bool.true_and, pathOk]
    split <;> rfl

/-- C1 counterexample: with the tag store holding `method ↦ ""` (a
completed tag with an empty-string value) and empty input, the code
accepts a record whose method is `"GET"` — the tag loop skips falsy
values — while the claim as stated demands rejection, since `"GET"` is
not string-equal to `""`. -/
theorem filter_claim_counterexample :
    filterResults [⟨"GET", "/users", 200, "1", "a.com"⟩] fieldNames
        [("method", some "")] ""
      = some [⟨"GET", "/users", 200, "1", "a.com"⟩] ∧
    List.filter (acceptsClaim fieldNames [("method", some "")] "")
        [⟨"GET", "/users", 200, "1", "a.com"⟩] = [] := by
  decide

/-- C1 (amended): for every dataset, captured key list, input text and
tag store over valid field names, the filter evaluator reports exactly
the records, in original dataset order, that (1) agree with every tag
whose value is truthy (non-`null` and non-empty) under stringified
equality, and (2) whenever the input text is non-empty and no unused
field name starts with it, contain it in their path. -/
theorem filter_refines_spec (data : List HttpLog) (keys : List String)
    (t : Tags) (input : String) (h : ∀ p ∈ t, p.1 ∈ fieldNames) :
    filterResults data keys t input
      = some (data.filter (acceptsAmended keys t input)) := by
  induction data with
  | nil => rfl
  | cons x xs ih =>
    simp only [filterResults, filterOpt,
      recordPasses_eq_accepts keys t input x h, Option.bind_eq_bind,
      Option.some_bind] at *
    rw [ih]
    simp [List.filter_cons]

theorem filter_refines_spec_witness :
    filterResults [⟨"GET", "/a", 200, "1", "d"⟩] fieldNames
        [("method", some "GET")] ""
      = some (List.filter (acceptsAmended fieldNames
          [("method", some "GET")] "") [⟨"GET", "/a", 200, "1", "d"⟩]) :=
  filter_refines_spec [⟨"GET", "/a", 200, "1", "d"⟩] fieldNames
    [("method", some "GET")] ""
    (by
      intro p hp
      simp only [List.mem_singleton] at hp
      subst hp
      decide)

/-! ### C2: the suggestion engine against its specification -/

/-- A tag store with no pending entry has only non-`null` values. -/
theorem incompleteTag_eq_none_iff (t : Tags) :
    incompleteTag t = none ↔ ∀ p ∈ t, p.2 ≠ none := by
  simp [incompleteTag, List.find?_eq_none, Option.isNone_iff_eq_none]

theorem any_congr {α : Type} (l : List α) (p q : α → Bool)
    (h : ∀ x ∈ l, p x = q x) : l.any p = l.any q := by
  induction l with
  | nil => rfl
  | cons x xs ih => simp_all

/-- The incomplete tag key, when present, is the key of some entry. -/
theorem incompleteTag_mem (t : Tags) (k : String)
    (h : incompleteTag t = some k) : ∃ p ∈ t, p.1 = k := by
  unfold incompleteTag at h
  cases hf : t.find? (fun p => p.2.isNone) with
  | none => rw [hf] at h; simp at h
  | some p =>
    rw [hf] at h
    simp at h
    exact ⟨p, List.mem_of_find?_eq_some hf, h⟩

/-- On a store with no empty-string key — every store the component can
build — the truthiness test agrees with `incompleteTag` itself. -/
theorem truthyIncomplete_eq (t : Tags) (h : ∀ p ∈ t, p.1 ≠ "") :
    truthyIncomplete t = incompleteTag t := by
  unfold truthyIncomplete
  cases hinc : incompleteTag t with
  | none => rfl
  | some k =>
    obtain ⟨p, hp, hk1⟩ := incompleteTag_mem t k hinc
    have hne : k ≠ "" := hk1 ▸ h p hp
    simp [hne]

/-- Specification-side suggestion engine, following the claim: with an
incomplete tag key, the distinct stringified values of that field whose
lowercase form contains the lowercase input, first-seen order;
otherwise the distinct matching path values — only when `path` is not a
completed tag — if that set is non-empty; otherwise the unused field
names starting with the input. -/
def suggestionsSpec (data : List HttpLog) (keys : List String) (t : Tags)
    (input : String) : List String :=
  match incompleteTag t with
  | some k =>
    dedupFirstSeen ((data.map (fun i => getFieldD i k)).filter
      (fun s => jsIncludes (jsToLower s) (jsToLower input)))
  | none =>
    let pathVals :=
      if t.any (fun p => p.1 == "path" && p.2.isSome) then []
      else dedupFirstSeen ((data.map (fun i => getFieldD i "path")).filter
        (fun s => jsIncludes (jsToLower s) (jsToLower input)))
    if pathVals ≠ [] then pathVals
    else keys.filter (fun k => jsStartsWith k input && !(t.hasKey k))

/-- C2: for every dataset, tag store over valid field names, and input
text, the suggestion engine computes exactly the claim's three-stage
candidate list. -/
theorem suggestions_refine_spec (data : List HttpLog)
    (keys : List String) (t : Tags) (input : String)
    (hv : ∀ p ∈ t, p.1 ∈ fieldNames) :
    suggestions data keys t input
      = some (suggestionsSpec data keys t input) := by
  have hne : ∀ p ∈ t, p.1 ≠ "" := by
    intro p hp he
    have hmem := hv p hp
    rw [he] at hmem
    simp [fieldNames] at hmem
  have htr : truthyIncomplete t = incompleteTag t := truthyIncomplete_eq t hne
  cases hinc : incompleteTag t with
  | some k =>
    have hkmem : k ∈ fieldNames := by
      obtain ⟨p, hp, hk1⟩ := incompleteTag_mem t k hinc
      rw [← hk1]
      exact hv p hp
    simp [suggestions, suggestionsSpec, htr, hinc,
      getSuggestions_of_mem data k input hkmem]
  | none =>
    have hnone : ∀ p ∈ t, p.2 ≠ none :=
      (incompleteTag_eq_none_iff t).mp hinc
    have hpath : Tags.hasKey t "path"
        = t.any (fun p => p.1 == "path" && p.2.isSome) := by
      apply any_congr
      intro p hp
      cases hv2 : p.2 with
      | none => exact absurd hv2 (hnone p hp)
      | some s => simp
    simp only [suggestions, suggestionsSpec, htr, hinc]
    cases hpc : t.any (fun p => p.1 == "path" && p.2.isSome) with
    | true =>
      rw [hpath, hpc]
      simp [getMatchingKeys]
    | false =>
      rw [hpath, hpc,
        getSuggestions_of_mem data "path" input (by simp [fieldNames])]
      simp only [Bool.not_false, if_true, Option.bind_eq_bind,
        Option.some_bind]
      cases hP : dedupFirstSeen ((data.map (fun i => getFieldD i "path")).filter
          (fun s => jsIncludes (jsToLower s) (jsToLower input))) with
      | nil => simp [getMatchingKeys]
      | cons a as => simp

theorem suggestions_refine_spec_witness :
    suggestions [⟨"GET", "/users", 200, "1", "a.com"⟩] fieldNames
        [("method", none)] "g"
      = some (suggestionsSpec [⟨"GET", "/users", 200, "1", "a.com"⟩]
          fieldNames [("method", none)] "g") :=
  suggestions_refine_spec [⟨"GET", "/users", 200, "1", "a.com"⟩]
    fieldNames [("method", none)] "g"
    (by
      intro p hp
      simp only [List.mem_singleton] at hp
      subst hp
      decide)

/-! ### C3: committing a suggestion -/

/-- Commit per the claim as stated: a candidate that *is* a selectable
(unused) field name begins a pending tag under that field name; any
other candidate sets the `path` tag. -/
def selectSuggestionClaim (t : Tags) (keys : List String)
    (cand : Option String) : Tags :=
  match cand with
  | none => t
  | some s =>
    if s = "" then t
    else
      match incompleteTag t with
      | some k => t.set k (some s)
      | none =>
        if keys.contains s && !(t.hasKey s) then t.set s none
        else t.set "path" (some s)

/-- C3 counterexample: the code tests whether any unused field name
*starts with* the candidate and then sets the *candidate itself* as a
pending key: committing `"met"` on an empty tag store yields the
pending tag `met ↦ null`, while the claim as stated — the candidate
must *match* a selectable field name — predicts the path tag
`path ↦ "met"`. -/
theorem selectSuggestion_claim_counterexample :
    selectSuggestion [] fieldNames (some "met") = [("met", none)] ∧
    selectSuggestionClaim [] fieldNames (some "met")
      = [("path", some "met")] ∧
    selectSuggestion [] fieldNames (some "met")
      ≠ selectSuggestionClaim [] fieldNames (some "met") := by
  decide

/-- C3 (amended): committing an empty or undefined candidate is a
no-op; with an incomplete tag key, commit completes it with the
candidate; otherwise, if some unused field name starts with the
candidate, commit sets the candidate itself as a pending key; otherwise
commit sets the `path` tag to the candidate. -/
theorem selectSuggestion_spec (t : Tags) (keys : List String)
    (s : String) :
    selectSuggestion t keys none = t ∧
    selectSuggestion t keys (some "") = t ∧
    (s ≠ "" →
      (∀ k, truthyIncomplete t = some k →
        selectSuggestion t keys (some s) = t.set k (some s)) ∧
      (truthyIncomplete t = none →
        (∃ k ∈ keys, jsStartsWith k s = true ∧ t.hasKey k = false) →
        selectSuggestion t keys (some s) = t.set s none) ∧
      (truthyIncomplete t = none →
        (∀ k ∈ keys, jsStartsWith k s = true → t.hasKey k = true) →
        selectSuggestion t keys (some s) = t.set "path" (some s))) := by
  refine ⟨rfl, rfl, fun hs => ⟨?_, ?_, ?_⟩⟩
  · intro k hinc
    simp [selectSuggestion, hinc, hs]
  · intro hinc hex
    obtain ⟨k, hkmem, hstart, hkey⟩ := hex
    have hmem : k ∈ getMatchingKeys keys t s := by
      simp only [getMatchingKeys, List.mem_filter]
      exact ⟨hkmem, by simp [hstart, hkey]⟩
    have hlen : (getMatchingKeys keys t s).length > 0 :=
      List.length_pos_of_mem hmem
    simp [selectSuggestion, hinc, hs, hlen]
  · intro hinc hall
    have hnil : getMatchingKeys keys t s = [] := by
      simp only [getMatchingKeys, List.filter_eq_nil_iff]
      intro k hkmem
      cases hstart : jsStartsWith k s with
      | false => simp [hstart]
      | true => simp [hstart, hall k hkmem hstart]
    have hlen : ¬((getMatchingKeys keys t s).length > 0) := by
      simp [hnil]
    simp [selectSuggestion, hinc, hs, hlen, hnil]

theorem selectSuggestion_spec_witness :
    selectSuggestion [] fieldNames (some "method")
      = Tags.set [] "method" none :=
  (selectSuggestion_spec [] fieldNames "method").2.2 (by decide) |>.2.1
    (by decide)
    ⟨"method", by decide, by decide, by decide⟩

/-! ### C4: at most one pending tag -/

/-- Number of pending (`null`-valued) entries of a tag store. -/
def pendingCount (t : Tags) : Nat :=
  t.countP (fun p => p.2.isNone)

/-- The keys of a tag store are pairwise distinct — the `Map`
representation invariant. -/
def NodupKeys (t : Tags) : Prop :=
  (t.map Prod.fst).Nodup

/-- No entry of the tag store has the empty string as key — the code
never commits a falsy candidate, so this holds for every reachable
store. -/
def NoEmptyKey (t : Tags) : Prop :=
  ∀ p ∈ t, p.1 ≠ ""

/-- A truthy incomplete key names an actual pending entry and is
non-empty. -/
theorem truthyIncomplete_some (t : Tags) (k : String)
    (h : truthyIncomplete t = some k) :
    incompleteTag t = some k ∧ k ≠ "" := by
  unfold truthyIncomplete at h
  cases hinc : incompleteTag t with
  | none =>
    rw [hinc] at h
    exact Option.noConfusion h
  | some k2 =>
    rw [hinc] at h
    have h2 : (if k2 = "" then none else some k2) = some k := h
    by_cases he : k2 = ""
    · rw [if_pos he] at h2
      exact Option.noConfusion h2
    · rw [if_neg he] at h2
      simp only [Option.some_inj] at h2
      subst h2
      exact ⟨rfl, he⟩

theorem noEmptyKey_set (t : Tags) (k : String) (v : Option String)
    (hk : k ≠ "") (h : NoEmptyKey t) : NoEmptyKey (t.set k v) := by
  unfold Tags.set
  split
  · intro p hp
    obtain ⟨q, hq, hfq⟩ := List.mem_map.mp hp
    by_cases hqk : (q.1 == k) = true
    · rw [if_pos hqk] at hfq
      rw [← hfq]
      exact hk
    · simp only [Bool.not_eq_true] at hqk
      rw [hqk] at hfq
      simp only [Bool.false_eq_true, if_false] at hfq
      rw [← hfq]
      exact h q hq
  · intro p hp
    rcases List.mem_append.mp hp with hp1 | hp2
    · exact h p hp1
    · simp only [List.mem_singleton] at hp2
      rw [hp2]
      exact hk

theorem noEmptyKey_delete (t : Tags) (k : String) (h : NoEmptyKey t) :
    NoEmptyKey (t.delete k) :=
  fun p hp => h p (List.mem_of_mem_filter hp)

/-- Tag stores reachable from the empty store by the component's
operations: committing a suggestion (with any captured key list and
any resolved candidate), removing the last tag section, and deleting a
tag chip. -/
inductive ReachableTags : Tags → Prop where
  | empty : ReachableTags []
  | select (t : Tags) (keys : List String) (cand : Option String) :
      ReachableTags t → ReachableTags (selectSuggestion t keys cand)
  | removeLast (t : Tags) : ReachableTags t →
      ReachableTags (removeLastTagSection t)
  | chipDelete (t : Tags) (k : String) : ReachableTags t →
      ReachableTags (t.delete k)

theorem incompleteTag_none_pendingCount (t : Tags)
    (h : incompleteTag t = none) : pendingCount t = 0 := by
  rw [pendingCount, List.countP_eq_zero]
  intro p hp
  have hne := (incompleteTag_eq_none_iff t).mp h p hp
  simp [Option.isNone_iff_eq_none, hne]

theorem pendingCount_set_some (t : Tags) (k s : String) :
    pendingCount (t.set k (some s)) ≤ pendingCount t := by
  unfold Tags.set
  split
  · rw [pendingCount, List.countP_map]
    apply List.countP_mono_left
    intro p hp hpred
    simp only [Function.comp] at hpred
    by_cases hk : (p.1 == k) = true
    · simp [hk] at hpred
    · simp only [Bool.not_eq_true] at hk
      simp only [hk, Bool.false_eq_true, if_false] at hpred
      exact hpred
  · rw [pendingCount, List.countP_append]
    simp [pendingCount]

theorem countP_map_pend_le (k : String) :
    ∀ t : Tags, NodupKeys t →
      (t.map (fun p => if p.1 == k then ((k, (none : Option String))) else p)).countP
          (fun p => p.2.isNone)
        ≤ t.countP (fun p => p.2.isNone) + 1 := by
  intro t
  induction t with
  | nil => intro _; simp
  | cons p rest ih =>
    intro hn
    rw [NodupKeys, List.map_cons, List.nodup_cons] at hn
    obtain ⟨hnotmem, hrest⟩ := hn
    rw [List.map_cons, List.countP_cons, List.countP_cons]
    by_cases hk : (p.1 == k) = true
    · have hkeq : p.1 = k := eq_of_beq hk
      have hmap : rest.map
          (fun q => if q.1 == k then ((k, (none : Option String))) else q)
            = rest := by
        have hpt : ∀ q ∈ rest,
            (if q.1 == k then ((k, (none : Option String))) else q) = id q := by
          intro q hq
          have hqk : (q.1 == k) = false := by
            cases hb : (q.1 == k) with
            | false => rfl
            | true =>
              exfalso
              apply hnotmem
              have hq1 : q.1 = k := eq_of_beq hb
              rw [← hq1] at hkeq
              rw [hkeq]
              exact List.mem_map_of_mem Prod.fst hq
          simp [hqk]
        rw [List.map_congr_left hpt, List.map_id]
      rw [hmap, hk]
      simp only [if_true, Option.isNone_none]
      omega
    · simp only [Bool.not_eq_true] at hk
      rw [hk]
      simp only [Bool.false_eq_true, if_false]
      have ihr := ih hrest
      omega

theorem pendingCount_set_none (t : Tags) (k : String) (hn : NodupKeys t) :
    pendingCount (t.set k none) ≤ pendingCount t + 1 := by
  unfold Tags.set
  split
  · exact countP_map_pend_le k t hn
  · rw [pendingCount, List.countP_append]
    simp [pendingCount]

theorem nodupKeys_set (t : Tags) (k : String) (v : Option String)
    (hn : NodupKeys t) : NodupKeys (t.set k v) := by
  unfold Tags.set
  split
  · rw [NodupKeys, List.map_map]
    have : (Prod.fst ∘ fun p => if p.1 == k then ((k, v) : String × Option String) else p)
        = Prod.fst := by
      funext p
      by_cases hk : (p.1 == k) = true
      · simp only [Function.comp, hk, if_true]
        exact (eq_of_beq hk).symm
      · simp only [Bool.not_eq_true] at hk
        simp [Function.comp, hk]
    rw [this]
    exact hn
  · rw [NodupKeys, List.map_append]
    rename_i hkey
    rw [List.nodup_append]
    refine ⟨hn, List.nodup_singleton k, ?_⟩
    intro a ha hb
    simp only [List.map_cons, List.map_nil, List.mem_singleton] at hb
    subst hb
    apply hkey
    simp only [Tags.hasKey, List.any_eq_true]
    obtain ⟨p, hp, hfst⟩ := List.mem_map.mp ha
    exact ⟨p, hp, by simp [hfst]⟩

theorem nodupKeys_delete (t : Tags) (k : String) (hn : NodupKeys t) :
    NodupKeys (t.delete k) := by
  rw [NodupKeys]
  exact List.Nodup.sublist (List.Sublist.map Prod.fst (List.filter_sublist t)) hn

theorem pendingCount_delete_le (t : Tags) (k : String) :
    pendingCount (t.delete k) ≤ pendingCount t :=
  List.Sublist.countP_le _ (List.filter_sublist t)

/-- Combined `Map` invariant: distinct keys, no empty-string key, and
at most one pending entry, preserved by every component operation from
the empty store. -/
theorem tagsInvariant (t : Tags) (h : ReachableTags t) :
    NodupKeys t ∧ NoEmptyKey t ∧ pendingCount t ≤ 1 := by
  induction h with
  | empty =>
    exact ⟨List.nodup_nil, fun p hp => absurd hp (List.not_mem_nil p),
      Nat.zero_le 1⟩
  | select t keys cand _ ih =>
    obtain ⟨hn, he, hc⟩ := ih
    by_cases hs : cand.getD "" = ""
    · simp only [selectSuggestion, hs, if_true]
      exact ⟨hn, he, hc⟩
    · cases hinc : truthyIncomplete t with
      | some k =>
        have hk := truthyIncomplete_some t k hinc
        simp only [selectSuggestion, hinc, if_neg hs]
        exact ⟨nodupKeys_set t k _ hn, noEmptyKey_set t k _ hk.2 he,
          le_trans (pendingCount_set_some t k _) hc⟩
      | none =>
        have hinc2 : incompleteTag t = none := by
          rw [← truthyIncomplete_eq t he]
          exact hinc
        have h0 : pendingCount t = 0 :=
          incompleteTag_none_pendingCount t hinc2
        simp only [selectSuggestion, hinc, if_neg hs]
        split
        · refine ⟨nodupKeys_set t _ none hn,
            noEmptyKey_set t _ none hs he, ?_⟩
          have := pendingCount_set_none t (cand.getD "") hn
          omega
        · refine ⟨nodupKeys_set t "path" _ hn,
            noEmptyKey_set t "path" _ (by decide) he, ?_⟩
          have := pendingCount_set_some t "path" (cand.getD "")
          omega
  | removeLast t _ ih =>
    obtain ⟨hn, he, hc⟩ := ih
    cases hinc : truthyIncomplete t with
    | none =>
      have hinc2 : incompleteTag t = none := by
        rw [← truthyIncomplete_eq t he]
        exact hinc
      have h0 : pendingCount t = 0 := incompleteTag_none_pendingCount t hinc2
      cases hlast : t.getLast? with
      | none =>
        simp only [removeLastTagSection, hinc, hlast]
        exact ⟨hn, he, hc⟩
      | some lastTag =>
        have hmem : lastTag ∈ t := List.mem_of_getLast?_eq_some hlast
        simp only [removeLastTagSection, hinc, hlast]
        refine ⟨nodupKeys_set t lastTag.1 none hn,
          noEmptyKey_set t lastTag.1 none (he lastTag hmem) he, ?_⟩
        have := pendingCount_set_none t lastTag.1 hn
        omega
    | some k =>
      simp only [removeLastTagSection, hinc]
      exact ⟨nodupKeys_delete t k hn, noEmptyKey_delete t k he,
        le_trans (pendingCount_delete_le t k) hc⟩
  | chipDelete t k _ ih =>
    obtain ⟨hn, he, hc⟩ := ih
    exact ⟨nodupKeys_delete t k hn, noEmptyKey_delete t k he,
      le_trans (pendingCount_delete_le t k) hc⟩

/-- C4: starting from the empty store, after every sequence of
operations — committing a suggestion, removing the last tag section,
deleting a tag chip — the tag store has at most one pending (`null`)
entry; in particular no commit can create a second pending tag while
one is incomplete. -/
theorem reachable_at_most_one_pending (t : Tags) (h : ReachableTags t) :
    pendingCount t ≤ 1 :=
  (tagsInvariant t h).2.2

theorem reachable_at_most_one_pending_witness :
    pendingCount (selectSuggestion [] fieldNames (some "method")) ≤ 1 :=
  reachable_at_most_one_pending _
    (ReachableTags.select [] fieldNames (some "method")
      ReachableTags.empty)

end FuzzySearch
